import Mathlib

/-!
Verification of the `fast_fmt` formatting crate.

The crate's `Write` trait (an output sink) is embedded as a structure of
state-threading operations: a sink over state `σ` with error type `ε`
threads the state through each call and returns the state paired with an
optional error (`none` = `Ok(())`), mirroring Rust's `&mut self` receiver
which keeps its state even when an error is returned.

The `Fmt<S>` trait is embedded value-and-impl together: a `FmtImpl S` is a
renderable value bundled with its rendering functions, polymorphic over the
sink, exactly as Rust's `fn fmt<W: Write>` is generic over the writer.
-/

namespace FastFmt

/-- The signature of the `Write` trait (src/lib.rs): an output sink over
state `σ` with associated error type `ε`.  `write_char`/`write_str` return
the updated state and an optional error; `size_hint` is advisory and cannot
fail; `uses_size_hint` reports whether the hint is consumed. -/
structure WriteSig (σ ε : Type) where
  write_char : σ → Char → σ × Option ε
  write_str : σ → List Char → σ × Option ε
  size_hint : σ → Nat → σ
  uses_size_hint : Bool

/-- Default body of `Write::write_str` (src/lib.rs lines 54-59): iterate the
characters, writing each with `write_char`, stopping at the first error
(`?` propagation keeps the state reached so far). -/
def writeStrDefault {σ ε : Type} (wc : σ → Char → σ × Option ε) :
    σ → List Char → σ × Option ε
  | st, [] => (st, none)
  | st, c :: cs =>
    match wc st c with
    | (st', none) => writeStrDefault wc st' cs
    | (st', some e) => (st', some e)

/-- The `Display` strategy marker (src/lib.rs line 234). -/
structure Display where

/-- The `Debug` strategy marker (src/lib.rs line 238). -/
structure Debug where

/-- A renderable: a value together with its `Fmt<S>` implementation
(src/lib.rs lines 109-119).  `fmt` writes the value into any sink under the
strategy; `size_hint` estimates the UTF-8 byte count of the output. -/
structure FmtImpl (S : Type) where
  fmt : {σ ε : Type} → WriteSig σ ε → σ → S → σ × Option ε
  size_hint : S → Nat

/-- `Empty`'s `Fmt<S>` implementation (src/lib.rs lines 222-230): writes
nothing, estimate 0. -/
def emptyFmt {S : Type} : FmtImpl S where
  fmt _ st _ := (st, none)
  size_hint _ := 0

/-- `Chain<T0, T1>`'s `Fmt<S>` implementation (src/lib.rs lines 199-208):
render `val0`, then (if it succeeded) `val1`; the estimate is the sum. -/
def chainFmt {S : Type} (val0 val1 : FmtImpl S) : FmtImpl S where
  fmt w st s :=
    match val0.fmt w st s with
    | (st', none) => val1.fmt w st' s
    | (st', some e) => (st', some e)
  size_hint s := val0.size_hint s + val1.size_hint s

/-- `Instantiated<'a, T, S>`'s `Fmt<Display>` implementation (src/lib.rs
lines 170-178): render the bound value under the bound strategy, ignoring
the outer `Display` strategy argument. -/
def instantiated {S : Type} (value : FmtImpl S) (strategy : S) : FmtImpl Display where
  fmt w st _ := value.fmt w st strategy
  size_hint _ := value.size_hint strategy

/-- UTF-8 encoding of a character, as performed by `char::encode_utf8`
(external standard-library routine used at src/lib.rs line 275); bytes are
represented as `Nat`s below 256. -/
def utf8Bytes (c : Char) : List Nat :=
  let n := c.toNat
  if n < 0x80 then [n]
  else if n < 0x800 then
    [0xC0 ||| (n >>> 6), 0x80 ||| (n &&& 0x3F)]
  else if n < 0x10000 then
    [0xE0 ||| (n >>> 12), 0x80 ||| ((n >>> 6) &&& 0x3F), 0x80 ||| (n &&& 0x3F)]
  else
    [0xF0 ||| (n >>> 18), 0x80 ||| ((n >>> 12) &&& 0x3F),
     0x80 ||| ((n >>> 6) &&& 0x3F), 0x80 ||| (n &&& 0x3F)]

/-- UTF-8 byte length of a character (`char::len_utf8`). -/
def utf8Len (c : Char) : Nat := (utf8Bytes c).length

/-- UTF-8 byte length of a string given as its characters (`str::len`). -/
def strLen : List Char → Nat
  | [] => 0
  | c :: cs => utf8Len c + strLen cs

/-- UTF-8 encoding of a whole string, character by character. -/
def encodeStr : List Char → List Nat
  | [] => []
  | c :: cs => utf8Bytes c ++ encodeStr cs

/-- `impl Fmt<Display> for str` (src/lib.rs lines 240-248): `fmt` forwards
the whole string to `write_str`; `size_hint` is the byte length. -/
def strFmt (s : List Char) : FmtImpl Display where
  fmt w st _ := w.write_str st s
  size_hint _ := strLen s

/-- `impl Fmt<Display> for char` (src/lib.rs lines 250-258). -/
def charFmt (c : Char) : FmtImpl Display where
  fmt w st _ := w.write_char st c
  size_hint _ := utf8Len c

/-- The `BufferOverflow` error (src/lib.rs line 262). -/
inductive BufferOverflow where
  | mk
deriving DecidableEq

/-- State of the bounded byte-slice sink `&mut [u8]`: the bytes written so
far into the front of the original slice, and the length of the remaining
(writable) tail. -/
structure SliceState where
  written : List Nat
  remaining : Nat
deriving DecidableEq

/-- `write_char` of `impl Write for &'a mut [u8]` (src/lib.rs lines
273-285): encode the character into UTF-8; if it fits in the remaining
slice, copy it and shrink the slice, else fail with `BufferOverflow`
leaving the slice untouched. -/
def sliceWriteChar (st : SliceState) (c : Char) : SliceState × Option BufferOverflow :=
  let buf := utf8Bytes c
  if buf.length ≤ st.remaining then
    (⟨st.written ++ buf, st.remaining - buf.length⟩, none)
  else
    (st, some BufferOverflow.mk)

/-- The bounded byte-slice sink (src/lib.rs lines 270-288): `write_str` is
the trait default, `size_hint` is a no-op, `uses_size_hint` is the trait
default `false`. -/
def sliceSink : WriteSig SliceState BufferOverflow where
  write_char := sliceWriteChar
  write_str := writeStrDefault sliceWriteChar
  size_hint st _ := st
  uses_size_hint := false

/-- The uninhabited error type of infallible sinks (the `void` crate's
`Void`, used at src/std_impls.rs line 15). -/
inductive Void : Type

/-- State of the growable `String` sink: its characters and its current
capacity in bytes (capacity is always at least the byte length of the
data; pushes grow it as needed). -/
structure StrState where
  data : List Char
  cap : Nat

/-- `impl Write for String` (src/std_impls.rs lines 14-34): `push` /
`push_str` always succeed, growing capacity as needed; `size_hint` is
`String::reserve`, which guarantees capacity for at least `bytes` more
bytes; `uses_size_hint` is `true`. -/
def stringSink : WriteSig StrState Void where
  write_char st c :=
    (⟨st.data ++ [c], max st.cap (strLen (st.data ++ [c]))⟩, none)
  write_str st s :=
    (⟨st.data ++ s, max st.cap (strLen (st.data ++ s))⟩, none)
  size_hint st bytes := ⟨st.data, max st.cap (strLen st.data + bytes)⟩
  uses_size_hint := true

/-- Decimal digit characters of a natural number, most significant first
(fuel-driven loop; `fuel ≥ n` suffices).  This models the external `numtoa`
routine used by the integer implementations (src/int_impls.rs line 24),
whose contract is to produce the usual decimal digit sequence. -/
def decDigitsCore : Nat → Nat → List Char → List Char
  | 0, n, acc => Nat.digitChar (n % 10) :: acc
  | fuel + 1, n, acc =>
    if n < 10 then Nat.digitChar n :: acc
    else decDigitsCore fuel (n / 10) (Nat.digitChar (n % 10) :: acc)

/-- Decimal representation of a natural number. -/
def decChars (n : Nat) : List Char := decDigitsCore n n []

/-- Decimal representation of an integer: a sign followed by the digits of
the absolute value, as `numtoa` writes signed integers. -/
def intDec (n : Int) : List Char :=
  if n < 0 then '-' :: decChars (-n).toNat else decChars n.toNat

/-- `impl Fmt<Display>` for a signed fixed-width integer (src/int_impls.rs
lines 10-37): write the decimal representation as one bulk string write;
`size_hint` is the per-type constant `N` from the macro invocation. -/
def intDecFmt (N : Nat) (n : Int) : FmtImpl Display where
  fmt w st _ := w.write_str st (intDec n)
  size_hint _ := N

/-- `impl Fmt<Display>` for an unsigned fixed-width integer
(src/int_impls.rs lines 10-37). -/
def natDecFmt (N : Nat) (n : Nat) : FmtImpl Display where
  fmt w st _ := w.write_str st (decChars n)
  size_hint _ := N

/-- The eight integer instances (src/int_impls.rs lines 42-51). -/
def i8Fmt : Int → FmtImpl Display := intDecFmt 4

def i16Fmt : Int → FmtImpl Display := intDecFmt 6

def i32Fmt : Int → FmtImpl Display := intDecFmt 11

def i64Fmt : Int → FmtImpl Display := intDecFmt 20

def u8Fmt : Nat → FmtImpl Display := natDecFmt 3

def u16Fmt : Nat → FmtImpl Display := natDecFmt 5

def u32Fmt : Nat → FmtImpl Display := natDecFmt 10

def u64Fmt : Nat → FmtImpl Display := natDecFmt 20

/-- The signature of the `Transform` trait (src/transform.rs lines 11-28):
rewrite a character (possibly into several) into a given writer, rewrite a
whole string, and adjust a size hint. -/
structure TransformSig where
  transform_char : {σ ε : Type} → WriteSig σ ε → σ → Char → σ × Option ε
  transform_str : {σ ε : Type} → WriteSig σ ε → σ → List Char → σ × Option ε
  transform_size_hint : Nat → Nat

/-- `Transformer<T, W>`'s `Write` implementation (src/transform.rs lines
60-78): route every write through the transformation, adjust hints with
`transform_size_hint`, pass `uses_size_hint` through. -/
def Transformer (t : TransformSig) {σ ε : Type} (w : WriteSig σ ε) : WriteSig σ ε where
  write_char st c := t.transform_char w st c
  write_str st s := t.transform_str w st s
  size_hint st bytes := w.size_hint st (t.transform_size_hint bytes)
  uses_size_hint := w.uses_size_hint

/-- `Transformed<V, T>`'s `Fmt<S>` implementation (src/transform.rs lines
124-133): wrap the sink in a transient `Transformer` for the duration of
rendering the inner value; the estimate is the adjusted inner estimate. -/
def transformedFmt {S : Type} (value : FmtImpl S) (t : TransformSig) : FmtImpl S where
  fmt w st s := value.fmt (Transformer t w) st s
  size_hint s := t.transform_size_hint (value.size_hint s)

/-- The identity transform of the spec's round-trip property:
`transform_char` writes the character unchanged, `transform_str` is the
trait default (src/transform.rs lines 16-21: iterate `transform_char`),
and `transform_size_hint` returns its argument unchanged. -/
def identityTransform : TransformSig where
  transform_char w st c := w.write_char st c
  transform_str w st s := writeStrDefault w.write_char st s
  transform_size_hint bytes := bytes

/-- One argument of the `fwrite!` macro, tagged the way
`fast_fmt_instantiate!` distinguishes its three forms (src/macros.rs lines
2-12): plain (display), `=>?` (debug), or `=>{strategy}` (custom). -/
inductive FArg : Type 2 where
  | display (v : FmtImpl Display)
  | debug (v : FmtImpl Debug)
  | custom {S : Type} (v : FmtImpl S) (strategy : S)

/-- `fast_fmt_instantiate!` (src/macros.rs lines 1-12): wrap each argument
as `Instantiated` with the matching strategy reference. -/
def FArg.instantiate : FArg → FmtImpl Display
  | .display v => instantiated v Display.mk
  | .debug v => instantiated v Debug.mk
  | .custom v s => instantiated v s

/-- The chain built by `fwrite!` (src/macros.rs lines 19-20): start from
`Empty` and fold each instantiated argument in, left to right. -/
def argsChain (args : List FArg) : FmtImpl Display :=
  args.foldl (fun acc a => chainFmt acc a.instantiate) emptyFmt

/-- The body of the `fwrite!` macro (src/macros.rs lines 14-29): build the
chain, forward the combined size hint when the sink uses hints, then
render the whole chain once under `Display`. -/
def fwrite {σ ε : Type} (w : WriteSig σ ε) (st : σ) (args : List FArg) : σ × Option ε :=
  let chain := argsChain args
  let st1 := if w.uses_size_hint then w.size_hint st (chain.size_hint Display.mk) else st
  chain.fmt w st1 Display.mk

/-! Specification-side instrumentation: an unbounded infallible sink that
accumulates the characters written (to observe a rendering's output), and
a trace sink that records every sink call (to observe call order). -/

/-- Unbounded infallible accumulator sink: the state is the list of
characters written so far. -/
def outSink : WriteSig (List Char) Void where
  write_char st c := (st ++ [c], none)
  write_str st s := (st ++ s, none)
  size_hint st _ := st
  uses_size_hint := false

/-- The characters a renderable writes when rendered alone into the
unbounded sink. -/
def output {S : Type} (v : FmtImpl S) (s : S) : List Char :=
  (v.fmt outSink [] s).1

/-- Total UTF-8 bytes of an output. -/
def bytesOf (l : List Char) : Nat := strLen l

/-- Locality of a renderable on the accumulator sink: rendering from any
starting accumulation appends exactly what rendering from the empty
accumulation produces.  Every implementation of the `Fmt` contract has
this property, since `fmt` can reach the sink state only through the
sink's (appending) write methods. -/
def OutInv {S : Type} (v : FmtImpl S) (s : S) : Prop :=
  ∀ pre : List Char,
    v.fmt outSink pre s = (pre ++ (v.fmt outSink [] s).1, (v.fmt outSink [] s).2)

/-- One observable sink call. -/
inductive Event where
  | wc (c : Char)
  | ws (s : List Char)
  | hint (n : Nat)
deriving DecidableEq

/-- Trace sink: records every call made to it, in order; infallible;
`uses_size_hint` as given. -/
def traceSink (uses : Bool) : WriteSig (List Event) Void where
  write_char st c := (st ++ [.wc c], none)
  write_str st s := (st ++ [.ws s], none)
  size_hint st n := st ++ [.hint n]
  uses_size_hint := uses

/-- Locality of a `Display` renderable on the trace sink (same contract
property as `OutInv`). -/
def TraceInv (v : FmtImpl Display) : Prop :=
  ∀ (uses : Bool) (pre : List Event),
    v.fmt (traceSink uses) pre Display.mk =
      (pre ++ (v.fmt (traceSink uses) [] Display.mk).1,
       (v.fmt (traceSink uses) [] Display.mk).2)

/-- Greedy prefix of a string that fits in `rem` remaining bytes: take
characters while each one's UTF-8 length fits, stop at the first that
does not. -/
def takeFit (rem : Nat) : List Char → List Char
  | [] => []
  | c :: cs => if utf8Len c ≤ rem then c :: takeFit (rem - utf8Len c) cs else []

/-! ## Shared lemmas -/

/-- An optional error of the uninhabited error type is always `none`:
infallible sinks cannot report a failure. -/
theorem optionVoid_eq_none (r : Option Void) : r = none := by
  cases r with
  | none => rfl
  | some e => exact nomatch e

/-! ## Claim theorems -/

/-- C7: `Instantiated::new(v, &s)` implements `Fmt<Display>`; rendering it
under the display strategy writes exactly what rendering `v` under the
bound strategy `s` writes (the outer display strategy argument is
ignored), and its size estimate under display equals `v`'s estimate
under `s`. -/
theorem instantiated_forwards_bound_strategy {S : Type} (v : FmtImpl S) (s : S)
    {σ ε : Type} (w : WriteSig σ ε) (st : σ) (d : Display) :
    (instantiated v s).fmt w st d = v.fmt w st s ∧
    (instantiated v s).size_hint d = v.size_hint s :=
  ⟨rfl, rfl⟩

/-- C8: rendering the i32 value `-2147483648` under the display strategy
writes exactly the string `"-2147483648"` (11 characters), and the i32
size estimate is exactly 11. -/
theorem i32_min_renders_exactly :
    output (i32Fmt (-2147483648)) Display.mk = "-2147483648".data ∧
    ("-2147483648".data).length = 11 ∧
    (i32Fmt (-2147483648)).size_hint Display.mk = 11 := by
  refine ⟨by decide, by decide, rfl⟩

/-- C9: the `String` sink is infallible — its error type is uninhabited,
`write_char` and `write_str` always succeed, `size_hint` reserves capacity
for at least `bytes` additional bytes, and `uses_size_hint` is `true`. -/
theorem string_sink_infallible :
    IsEmpty Void ∧
    (∀ (st : StrState) (c : Char), (stringSink.write_char st c).2 = none) ∧
    (∀ (st : StrState) (s : List Char), (stringSink.write_str st s).2 = none) ∧
    (∀ (st : StrState) (bytes : Nat),
      strLen (stringSink.size_hint st bytes).data + bytes ≤
        (stringSink.size_hint st bytes).cap) ∧
    stringSink.uses_size_hint = true := by
  refine ⟨⟨fun v => nomatch v⟩, fun _ _ => rfl, fun _ _ => rfl, fun st bytes => ?_, rfl⟩
  exact Nat.le_max_right _ _

/-- C3: a bounded-slice `write_char` succeeds iff the character's UTF-8
length fits in the remaining slice; on success it appends exactly the
UTF-8 encoding and shrinks the remainder by that length; on failure it
returns `BufferOverflow` and leaves the state unchanged. -/
theorem slice_write_char_spec (st : SliceState) (c : Char) :
    ((sliceWriteChar st c).2 = none ↔ utf8Len c ≤ st.remaining) ∧
    (utf8Len c ≤ st.remaining →
      sliceWriteChar st c =
        (⟨st.written ++ utf8Bytes c, st.remaining - utf8Len c⟩, none)) ∧
    (st.remaining < utf8Len c →
      sliceWriteChar st c = (st, some BufferOverflow.mk)) := by
  unfold sliceWriteChar
  by_cases h : (utf8Bytes c).length ≤ st.remaining <;>
    simp [utf8Len, h]

/-- C10: writing the empty string to the bounded-slice sink always
succeeds and leaves the sink unchanged (even with zero remaining
capacity); an overflow error can arise only when the string's total UTF-8
length exceeds the remaining capacity, i.e. some character failed to
fit. -/
theorem slice_write_str_empty_ok (st : SliceState) :
    sliceSink.write_str st [] = (st, none) ∧
    (∀ s : List Char, (sliceSink.write_str st s).2 = some BufferOverflow.mk →
      st.remaining < strLen s) := by
  constructor
  · rfl
  · intro s
    induction s generalizing st with
    | nil => intro h; exact absurd h (by simp [sliceSink, writeStrDefault])
    | cons c cs ih =>
      intro h
      show st.remaining < utf8Len c + strLen cs
      by_cases hc : utf8Len c ≤ st.remaining
      · have hstep : sliceWriteChar st c =
            (⟨st.written ++ utf8Bytes c, st.remaining - utf8Len c⟩, none) := by
          unfold sliceWriteChar
          simp [utf8Len] at hc ⊢
          omega
        have h' : (sliceSink.write_str
            (⟨st.written ++ utf8Bytes c, st.remaining - utf8Len c⟩ : SliceState) cs).2 =
              some BufferOverflow.mk := by
          simpa [sliceSink, writeStrDefault, hstep] using h
        have := ih _ h'
        simp at this
        omega
      · omega

/-- Witness for C3: writing `'a'` into 4 remaining bytes succeeds,
appending its one-byte encoding and leaving 3 bytes. -/
theorem slice_write_char_spec_witness :
    sliceWriteChar ⟨[], 4⟩ 'a' =
      (⟨([] : List Nat) ++ utf8Bytes 'a', 4 - utf8Len 'a'⟩, none) :=
  (slice_write_char_spec ⟨[], 4⟩ 'a').2.1 (by decide)

/-- Witness for C10: a failing write into an empty slice implies the
string was longer than the zero remaining capacity. -/
theorem slice_write_str_empty_ok_witness :
    (0 : Nat) < strLen ['a'] :=
  (slice_write_str_empty_ok ⟨[], 0⟩).2 ['a'] (by decide)

/-- Rendering a chain into the accumulator sink concatenates the
children's standalone outputs (using the second child's locality). -/
theorem chain_output_concat {S : Type} (a b : FmtImpl S) (s : S) (hb : OutInv b s) :
    output (chainFmt a b) s = output a s ++ output b s := by
  rcases hA : a.fmt outSink [] s with ⟨outA, rA⟩
  cases rA with
  | some e => exact nomatch e
  | none =>
    rcases hB : b.fmt outSink [] s with ⟨outB, rB⟩
    cases rB with
    | some e => exact nomatch e
    | none =>
      have hb' := hb outA
      rw [hB] at hb'
      simp only [output, chainFmt, hA, hb', hB]

/-- C2: the chain's size estimate is exactly the sum of its children's
estimates, and (for renderables satisfying the rendering contract's
locality on the accumulator sink) rendering the chain writes exactly the
concatenation of what `a` alone writes followed by what `b` alone writes,
in that order. -/
theorem chain_is_exact_concatenation {S : Type} (a b : FmtImpl S) (s : S) :
    (chainFmt a b).size_hint s = a.size_hint s + b.size_hint s ∧
    (OutInv a s → OutInv b s →
      output (chainFmt a b) s = output a s ++ output b s) :=
  ⟨rfl, fun _ hb => chain_output_concat a b s hb⟩

/-- Witness for C2: chaining the strings `"x"` and `"y"` writes `"xy"`. -/
theorem chain_is_exact_concatenation_witness :
    output (chainFmt (strFmt ['x']) (strFmt ['y'])) Display.mk =
      output (strFmt ['x']) Display.mk ++ output (strFmt ['y']) Display.mk :=
  (chain_is_exact_concatenation (strFmt ['x']) (strFmt ['y']) Display.mk).2
    (fun _ => rfl) (fun _ => rfl)

/-- A `Transformer` carrying the identity transform is, for any sink whose
`write_str` agrees with the trait-default character iteration, the same
sink. -/
theorem transformer_identity_eq {σ ε : Type} (w : WriteSig σ ε)
    (hw : ∀ st s, w.write_str st s = writeStrDefault w.write_char st s) :
    Transformer identityTransform w = w := by
  cases w with
  | mk wc ws sh u =>
    simp only [Transformer, identityTransform, WriteSig.mk.injEq]
    refine ⟨trivial, ?_, trivial, trivial⟩
    funext st s
    exact (hw st s).symm

/-- C6: wrapping a renderable in `Transformed` with the identity transform
renders identically to the plain renderable — same writes, same result —
into any sink whose `write_str` agrees with the trait-default character
iteration, and its size estimate is unchanged. -/
theorem transformed_identity_roundtrip {σ ε : Type} (w : WriteSig σ ε)
    (hw : ∀ st s, w.write_str st s = writeStrDefault w.write_char st s)
    {S : Type} (v : FmtImpl S) (strat : S) (st : σ) :
    (transformedFmt v identityTransform).fmt w st strat = v.fmt w st strat ∧
    (transformedFmt v identityTransform).size_hint strat = v.size_hint strat := by
  constructor
  · show v.fmt (Transformer identityTransform w) st strat = v.fmt w st strat
    rw [transformer_identity_eq w hw]
  · rfl

/-- Witness for C6: on the bounded-slice sink (whose `write_str` is the
trait default), `Transformed` of the string `"a"` with the identity
transform renders the same as the string alone. -/
theorem transformed_identity_roundtrip_witness :
    (transformedFmt (strFmt ['a']) identityTransform).fmt sliceSink ⟨[], 5⟩ Display.mk =
      (strFmt ['a']).fmt sliceSink ⟨[], 5⟩ Display.mk :=
  (transformed_identity_roundtrip sliceSink (fun _ _ => rfl)
    (strFmt ['a']) Display.mk ⟨[], 5⟩).1

/-- Chaining preserves locality on the trace sink. -/
theorem traceInv_chain {a b : FmtImpl Display} (ha : TraceInv a) (hb : TraceInv b) :
    TraceInv (chainFmt a b) := by
  intro uses pre
  rcases hA : a.fmt (traceSink uses) [] Display.mk with ⟨tA, rA⟩
  cases rA with
  | some e => exact nomatch e
  | none =>
    rcases hB : b.fmt (traceSink uses) [] Display.mk with ⟨tB, rB⟩
    cases rB with
    | some e => exact nomatch e
    | none =>
      have ha' := ha uses pre
      rw [hA] at ha'
      have hb' := hb uses (pre ++ tA)
      rw [hB] at hb'
      have hbt := hb uses tA
      rw [hB] at hbt
      simp only [chainFmt, ha', hA, hb', hB, hbt, List.append_assoc]

/-- The chain `fwrite!` folds its arguments into is local on the trace
sink whenever every argument is. -/
theorem traceInv_foldl (args : List FArg) (acc : FmtImpl Display)
    (hacc : TraceInv acc) (h : ∀ a ∈ args, TraceInv a.instantiate) :
    TraceInv (args.foldl (fun c a => chainFmt c a.instantiate) acc) := by
  induction args generalizing acc with
  | nil => exact hacc
  | cons a as ih =>
    exact ih _ (traceInv_chain hacc (h a (by simp))) (fun x hx => h x (by simp [hx]))

/-- The folded chain's size estimate is the accumulator's plus the sum of
the arguments' estimates. -/
theorem argsChain_size_foldl (args : List FArg) (acc : FmtImpl Display) :
    (args.foldl (fun c a => chainFmt c a.instantiate) acc).size_hint Display.mk =
      acc.size_hint Display.mk +
        (args.map (fun a => a.instantiate.size_hint Display.mk)).sum := by
  induction args generalizing acc with
  | nil => simp
  | cons a as ih =>
    rw [List.foldl_cons, ih]
    simp only [List.map_cons, List.sum_cons, chainFmt]
    omega

/-- C5: the `fwrite!` facility folds its `Instantiated`-wrapped arguments
left-to-right into one chain starting from `Empty`; when the sink uses
size hints, the combined estimate (the sum of the arguments' estimates)
is forwarded as the very first sink call, before any write; and the chain
is then rendered in one pass, whose result is returned.  When the sink
does not use hints, no hint call is made: the behaviour is exactly the
single render. -/
theorem fwrite_hints_then_renders (args : List FArg)
    (h : ∀ a ∈ args, TraceInv a.instantiate) :
    fwrite (traceSink false) [] args =
      (argsChain args).fmt (traceSink false) [] Display.mk ∧
    fwrite (traceSink true) [] args =
      (Event.hint ((argsChain args).size_hint Display.mk) ::
         ((argsChain args).fmt (traceSink true) [] Display.mk).1,
       ((argsChain args).fmt (traceSink true) [] Display.mk).2) ∧
    (argsChain args).size_hint Display.mk =
      (args.map (fun a => a.instantiate.size_hint Display.mk)).sum := by
  have hinv : TraceInv (argsChain args) :=
    traceInv_foldl args emptyFmt (by intro u pre; simp [emptyFmt]) h
  refine ⟨rfl, ?_, ?_⟩
  · exact hinv true [Event.hint ((argsChain args).size_hint Display.mk)]
  · have := argsChain_size_foldl args emptyFmt
    simpa [argsChain, emptyFmt] using this

/-- Witness for C5: one string argument `"h"`; with a hint-using sink the
trace is the hint for 1 byte followed by the single bulk write. -/
theorem fwrite_hints_then_renders_witness :
    fwrite (traceSink true) [] [FArg.display (strFmt ['h'])] =
      ([Event.hint 1, Event.ws ['h']], none) := by
  have h := fwrite_hints_then_renders [FArg.display (strFmt ['h'])]
    (by
      intro a ha
      simp only [List.mem_singleton] at ha
      subst ha
      intro u pre
      rfl)
  exact h.2.1

/-- C4: writing a string longer (in UTF-8 bytes) than the remaining
capacity of the bounded-slice sink fails with `BufferOverflow`, and
afterwards the sink holds exactly the encodings of the greedy prefix of
characters that fit before the first character that did not, with no
bytes of the failing character written; in particular the 12-byte string
`"Hello world1"` overflows both a 5-byte and a 0-byte buffer. -/
theorem slice_write_str_overflow :
    (∀ (s : List Char) (st : SliceState), st.remaining < strLen s →
      sliceSink.write_str st s =
        (⟨st.written ++ encodeStr (takeFit st.remaining s),
          st.remaining - strLen (takeFit st.remaining s)⟩,
         some BufferOverflow.mk)) ∧
    (sliceSink.write_str ⟨[], 5⟩ "Hello world1".data).2 = some BufferOverflow.mk ∧
    (sliceSink.write_str ⟨[], 0⟩ "Hello world1".data).2 = some BufferOverflow.mk := by
  refine ⟨?_, by decide, by decide⟩
  intro s
  induction s with
  | nil => intro st h; simp [strLen] at h
  | cons c cs ih =>
    intro st h
    show writeStrDefault sliceWriteChar st (c :: cs) = _
    by_cases hc : utf8Len c ≤ st.remaining
    · have hstep : sliceWriteChar st c =
          (⟨st.written ++ utf8Bytes c, st.remaining - utf8Len c⟩, none) := by
        unfold sliceWriteChar
        simp only [utf8Len] at hc
        simp [hc, utf8Len]
      have hrec : st.remaining - utf8Len c < strLen cs := by
        simp only [strLen] at h
        omega
      have := ih ⟨st.written ++ utf8Bytes c, st.remaining - utf8Len c⟩ hrec
      simp only [sliceSink] at this
      simp only [writeStrDefault, hstep, this, takeFit, hc, if_pos, encodeStr,
        strLen, List.append_assoc]
      rw [Nat.sub_sub]
    · have hstep : sliceWriteChar st c = (st, some BufferOverflow.mk) := by
        unfold sliceWriteChar
        simp only [utf8Len] at hc
        simp [hc]
      simp [writeStrDefault, hstep, takeFit, hc, encodeStr, strLen]

/-- Witness for C4: the general overflow characterization applied to
`"Hello world1"` and a 5-byte buffer: the sink ends up holding exactly
`"Hello"` and the write fails. -/
theorem slice_write_str_overflow_witness :
    sliceSink.write_str ⟨[], 5⟩ "Hello world1".data =
      (⟨([] : List Nat) ++ encodeStr (takeFit 5 "Hello world1".data),
        5 - strLen (takeFit 5 "Hello world1".data)⟩,
       some BufferOverflow.mk) :=
  slice_write_str_overflow.1 "Hello world1".data ⟨[], 5⟩ (by decide)

/-- The characters `Nat.digitChar` produces for decimal digits are
ASCII. -/
theorem digitChar_ascii {d : Nat} (h : d < 10) : (Nat.digitChar d).toNat < 128 := by
  interval_cases d <;> decide

/-- The decimal-digit loop produces only ASCII characters (given an ASCII
accumulator). -/
theorem decDigitsCore_ascii (fuel : Nat) :
    ∀ (n : Nat) (acc : List Char), (∀ c ∈ acc, c.toNat < 128) →
      ∀ c ∈ decDigitsCore fuel n acc, c.toNat < 128 := by
  induction fuel with
  | zero =>
    intro n acc hacc c hc
    simp only [decDigitsCore] at hc
    rcases List.mem_cons.mp hc with rfl | hc
    · exact digitChar_ascii (Nat.mod_lt _ (by norm_num))
    · exact hacc c hc
  | succ fuel ih =>
    intro n acc hacc c hc
    simp only [decDigitsCore] at hc
    by_cases hn : n < 10
    · rw [if_pos hn] at hc
      rcases List.mem_cons.mp hc with rfl | hc
      · exact digitChar_ascii hn
      · exact hacc c hc
    · rw [if_neg hn] at hc
      refine ih (n / 10) _ ?_ c hc
      intro x hx
      rcases List.mem_cons.mp hx with rfl | hx
      · exact digitChar_ascii (Nat.mod_lt _ (by norm_num))
      · exact hacc x hx

/-- ASCII characters encode to a single UTF-8 byte. -/
theorem utf8Len_ascii {c : Char} (h : c.toNat < 128) : utf8Len c = 1 := by
  simp [utf8Len, utf8Bytes, h]

/-- A string of ASCII characters has as many UTF-8 bytes as characters. -/
theorem strLen_ascii : ∀ l : List Char, (∀ c ∈ l, c.toNat < 128) →
    strLen l = l.length := by
  intro l
  induction l with
  | nil => intro _; rfl
  | cons c cs ih =>
    intro h
    have hc := utf8Len_ascii (h c (by simp))
    simp [strLen, hc, ih (fun x hx => h x (by simp [hx]))]
    omega

/-- UTF-8 byte length is additive over concatenation. -/
theorem strLen_append : ∀ l1 l2 : List Char, strLen (l1 ++ l2) = strLen l1 + strLen l2 := by
  intro l1 l2
  induction l1 with
  | nil => simp [strLen]
  | cons c cs ih => simp [strLen, ih]; omega

/-- The decimal-digit loop emits at most `k` digits for inputs below
`10 ^ k` (with sufficient fuel). -/
theorem decDigitsCore_len (fuel : Nat) :
    ∀ (n : Nat) (acc : List Char) (k : Nat), n ≤ fuel → n < 10 ^ k → 1 ≤ k →
      (decDigitsCore fuel n acc).length ≤ k + acc.length := by
  induction fuel with
  | zero =>
    intro n acc k _ _ h1
    simp only [decDigitsCore, List.length_cons]
    omega
  | succ fuel ih =>
    intro n acc k hf hk h1
    simp only [decDigitsCore]
    by_cases hn : n < 10
    · rw [if_pos hn]
      simp only [List.length_cons]
      omega
    · rw [if_neg hn]
      have hk2 : 2 ≤ k := by
        by_contra hlt
        have hk1 : k = 1 := by omega
        subst hk1
        simp only [pow_one] at hk
        omega
      have hdiv : n / 10 < 10 ^ (k - 1) := by
        have hpow : 10 ^ (k - 1) * 10 = 10 ^ k := by
          rw [← pow_succ]
          congr 1
          omega
        rw [Nat.div_lt_iff_lt_mul (by norm_num)]
        omega
      have hfle : n / 10 ≤ fuel := by
        have := Nat.div_lt_self (by omega : 0 < n) (by norm_num : 1 < 10)
        omega
      have := ih (n / 10) (Nat.digitChar (n % 10) :: acc) (k - 1) hfle hdiv (by omega)
      simp only [List.length_cons] at this
      omega

/-- Byte-length bound for the decimal representation of a natural. -/
theorem decChars_bytes_le (n k : Nat) (h1 : 1 ≤ k) (h : n < 10 ^ k) :
    strLen (decChars n) ≤ k := by
  show strLen (decDigitsCore n n []) ≤ k
  rw [strLen_ascii _ (decDigitsCore_ascii n n [] (by simp))]
  have := decDigitsCore_len n n [] k (Nat.le_refl n) h h1
  simpa using this

/-- Byte-length bound for the decimal representation of an integer. -/
theorem intDec_bytes_le (n : Int) (k : Nat) (h1 : 1 ≤ k)
    (hneg : (-n).toNat < 10 ^ k) (hpos : n.toNat < 10 ^ k) :
    strLen (intDec n) ≤ k + 1 := by
  unfold intDec
  by_cases hn : n < 0
  · rw [if_pos hn]
    have hbody := decChars_bytes_le (-n).toNat k h1 hneg
    have hminus : utf8Len '-' = 1 := by decide
    show utf8Len '-' + strLen (decChars (-n).toNat) ≤ k + 1
    omega
  · rw [if_neg hn]
    have hbody := decChars_bytes_le n.toNat k h1 hpos
    omega

/-- Counterexample to C1's integer-exactness clause: the i32 rendering of
`0` writes one byte (`"0"`) while its size estimate is the constant 11. -/
theorem int_size_hint_not_exact :
    (i32Fmt 0).size_hint Display.mk ≠ bytesOf (output (i32Fmt 0) Display.mk) := by
  decide

/-- C1 (amended): the size estimates of the crate's renderings are upper
bounds on the bytes actually written into an unbounded infallible sink;
for `str` (and `char`) the estimate is exact, while for the fixed-width
integers it is the constant per-type maximum width — an upper bound over
the whole value range, not an exact count for every value.  Chaining and
instantiation preserve the upper-bound property. -/
theorem size_hint_upper_bound :
    (∀ s : List Char,
      output (strFmt s) Display.mk = s ∧
      bytesOf (output (strFmt s) Display.mk) = (strFmt s).size_hint Display.mk) ∧
    (∀ c : Char,
      output (charFmt c) Display.mk = [c] ∧
      bytesOf (output (charFmt c) Display.mk) = (charFmt c).size_hint Display.mk) ∧
    (∀ n : Int, -128 ≤ n → n < 128 →
      bytesOf (output (i8Fmt n) Display.mk) ≤ (i8Fmt n).size_hint Display.mk) ∧
    (∀ n : Int, -32768 ≤ n → n < 32768 →
      bytesOf (output (i16Fmt n) Display.mk) ≤ (i16Fmt n).size_hint Display.mk) ∧
    (∀ n : Int, -2147483648 ≤ n → n < 2147483648 →
      bytesOf (output (i32Fmt n) Display.mk) ≤ (i32Fmt n).size_hint Display.mk) ∧
    (∀ n : Int, -9223372036854775808 ≤ n → n < 9223372036854775808 →
      bytesOf (output (i64Fmt n) Display.mk) ≤ (i64Fmt n).size_hint Display.mk) ∧
    (∀ n : Nat, n < 256 →
      bytesOf (output (u8Fmt n) Display.mk) ≤ (u8Fmt n).size_hint Display.mk) ∧
    (∀ n : Nat, n < 65536 →
      bytesOf (output (u16Fmt n) Display.mk) ≤ (u16Fmt n).size_hint Display.mk) ∧
    (∀ n : Nat, n < 4294967296 →
      bytesOf (output (u32Fmt n) Display.mk) ≤ (u32Fmt n).size_hint Display.mk) ∧
    (∀ n : Nat, n < 18446744073709551616 →
      bytesOf (output (u64Fmt n) Display.mk) ≤ (u64Fmt n).size_hint Display.mk) ∧
    (∀ (S : Type) (s : S),
      output (emptyFmt (S := S)) s = [] ∧
      bytesOf (output (emptyFmt (S := S)) s) = (emptyFmt (S := S)).size_hint s) ∧
    (∀ (S : Type) (a b : FmtImpl S) (s : S), OutInv b s →
      bytesOf (output a s) ≤ a.size_hint s →
      bytesOf (output b s) ≤ b.size_hint s →
      bytesOf (output (chainFmt a b) s) ≤ (chainFmt a b).size_hint s) ∧
    (∀ (S : Type) (v : FmtImpl S) (s : S),
      bytesOf (output v s) ≤ v.size_hint s →
      bytesOf (output (instantiated v s) Display.mk) ≤
        (instantiated v s).size_hint Display.mk) := by
  refine ⟨fun s => ⟨rfl, rfl⟩, fun c => ⟨rfl, ?_⟩, ?_, ?_, ?_, ?_, ?_, ?_, ?_, ?_,
    fun S s => ⟨rfl, rfl⟩, ?_, fun S v s h => h⟩
  · show utf8Len c + strLen [] = utf8Len c
    simp [strLen]
  · intro n hlo hhi
    show strLen (intDec n) ≤ 4
    have hp : (10 : Nat) ^ 3 = 1000 := by norm_num
    have := intDec_bytes_le n 3 (by norm_num) (by omega) (by omega)
    omega
  · intro n hlo hhi
    show strLen (intDec n) ≤ 6
    have hp : (10 : Nat) ^ 5 = 100000 := by norm_num
    have := intDec_bytes_le n 5 (by norm_num) (by omega) (by omega)
    omega
  · intro n hlo hhi
    show strLen (intDec n) ≤ 11
    have hp : (10 : Nat) ^ 10 = 10000000000 := by norm_num
    have := intDec_bytes_le n 10 (by norm_num) (by omega) (by omega)
    omega
  · intro n hlo hhi
    show strLen (intDec n) ≤ 20
    have hp : (10 : Nat) ^ 19 = 10000000000000000000 := by norm_num
    have := intDec_bytes_le n 19 (by norm_num) (by omega) (by omega)
    omega
  · intro n hhi
    show strLen (decChars n) ≤ 3
    have hp : (10 : Nat) ^ 3 = 1000 := by norm_num
    exact decChars_bytes_le n 3 (by norm_num) (by omega)
  · intro n hhi
    show strLen (decChars n) ≤ 5
    have hp : (10 : Nat) ^ 5 = 100000 := by norm_num
    exact decChars_bytes_le n 5 (by norm_num) (by omega)
  · intro n hhi
    show strLen (decChars n) ≤ 10
    have hp : (10 : Nat) ^ 10 = 10000000000 := by norm_num
    exact decChars_bytes_le n 10 (by norm_num) (by omega)
  · intro n hhi
    show strLen (decChars n) ≤ 20
    have hp : (10 : Nat) ^ 20 = 100000000000000000000 := by norm_num
    exact decChars_bytes_le n 20 (by norm_num) (by omega)
  · intro S a b s hb ha' hb'
    have hcat := chain_output_concat a b s hb
    show bytesOf (output (chainFmt a b) s) ≤ a.size_hint s + b.size_hint s
    rw [hcat]
    unfold bytesOf at *
    rw [strLen_append]
    omega

/-- Witness for C1 (amended): the i32 bound applied at the minimum value,
whose 11 written bytes meet the estimate 11. -/
theorem size_hint_upper_bound_witness :
    bytesOf (output (i32Fmt (-2147483648)) Display.mk) ≤
      (i32Fmt (-2147483648)).size_hint Display.mk :=
  size_hint_upper_bound.2.2.2.2.1 (-2147483648) (by norm_num) (by norm_num)

end FastFmt
